import Mathlib

/-!
Verification of the knowledge-base query core: error classification
(`utils/retry.go`, `errors`), the retry-with-backoff executor
(`utils/retry.go`), the multi-source query/merge pipeline
(`aws/bedrock_kb_client.go`), the document metadata resolver
(`services` document summary), and the markdown normaliser
(`utils` CleanMarkdown).

Strings are modelled as Lean `String`/`List Char`; Go `error` values as an
explicit inductive; goroutine completion order as the order of the fan-in
channel contents.
-/

namespace KBCore

/-! ### Error model (`errors` package, BedrockError) -/

def ErrCodeValidation : String := "VALIDATION_ERROR"

def ErrCodeEmbedding : String := "EMBEDDING_ERROR"

def ErrCodeKnowledgeBase : String := "KB_ERROR"

def ErrCodeThrottling : String := "THROTTLING_ERROR"

def ErrCodeAWSService : String := "AWS_SERVICE_ERROR"

/-- A Go `error` value as seen by the retry layer: either a structured
`*errors.BedrockError` (code, message, optional wrapped cause) or an opaque
error exposing only its message. -/
inductive GoError where
  | bedrock (code message : String) (cause : Option GoError)
  | plain (message : String)

/-- `(*BedrockError).Error()` / the message of an opaque error. -/
def GoError.errorString : GoError → String
  | .bedrock code message (some cause) =>
      "[" ++ code ++ "] " ++ message ++ ": " ++ cause.errorString
  | .bedrock code message none => "[" ++ code ++ "] " ++ message
  | .plain message => message

/-! ### Substring search (`contains` / `findSubstring` in retry.go) -/

/-- `findSubstring` from retry.go: scan every start offset. -/
def goFindSubstring (s substr : List Char) : Bool :=
  (List.range (s.length - substr.length + 1)).any
    fun i => decide ((s.drop i).take substr.length = substr)

/-- `contains` from retry.go (length guard, equality, boundary and scan cases). -/
def goContains (s substr : List Char) : Bool :=
  decide (substr.length ≤ s.length) &&
    (decide (s = substr) ||
      (decide (substr.length < s.length) &&
        (decide (s.take substr.length = substr) ||
         decide (s.drop (s.length - substr.length) = substr) ||
         goFindSubstring s substr)))

/-! ### Error classifier (`isRetryable` in retry.go) -/

/-- The transient-marker substrings of `retryablePatterns`. -/
def retryablePatterns : List String :=
  ["timeout", "Timeout", "ServiceUnavailable", "InternalServer",
   "TooManyRequests", "Throttling"]

/-- The message fallback: any pattern occurs in the error text. -/
def messageRetryable (msg : String) : Bool :=
  retryablePatterns.any fun p => goContains msg.toList p.toList

/-- `isRetryable` on a non-nil error: the structured-code switch, falling
through to the message scan for unrecognised codes and opaque errors. -/
def isRetryableErr : GoError → Bool
  | .bedrock code message cause =>
      if code = ErrCodeThrottling then true
      else if code = ErrCodeAWSService then true
      else if code = ErrCodeValidation then false
      else if code = ErrCodeEmbedding ∨ code = ErrCodeKnowledgeBase then
        match cause with
        | some c => isRetryableErr c
        | none => false
      else messageRetryable (GoError.errorString (.bedrock code message cause))
  | .plain message => messageRetryable (GoError.errorString (.plain message))

/-- `isRetryable` including the nil-error guard. -/
def isRetryable : Option GoError → Bool
  | none => false
  | some e => isRetryableErr e

/-! ### Retry executor (`RetryWithBackoff` in retry.go)

The operation is modelled as the sequence of outcomes of its successive
invocations (`op k` = result of invocation `k`, 0-indexed); the context is
uncancelled, so the backoff `select` always completes the sleep. The fuel
argument is the number of attempts still allowed including the current one.
Backoff durations are pure timing side effects and are modelled only by the
count of sleeps performed. Result: (returned error, invocations, sleeps). -/
def retryFrom (op : Nat → Option GoError) : Nat → Nat → Option GoError × Nat × Nat
  | 0, _ => (none, 0, 0)
  | fuel + 1, idx =>
    match op idx with
    | none => (none, 1, 0)
    | some e =>
      if isRetryableErr e then
        if fuel = 0 then (some e, 1, 0)
        else
          let r := retryFrom op fuel (idx + 1)
          (r.1, r.2.1 + 1, r.2.2 + 1)
      else (some e, 1, 0)

/-- `RetryWithBackoff(ctx, config, operation)` with an uncancelled context. -/
def RetryWithBackoff (maxAttempts : Nat) (op : Nat → Option GoError) :
    Option GoError × Nat × Nat :=
  retryFrom op maxAttempts 0

/-! ### Multi-source query pipeline (`QueryMultipleKnowledgeBases`)

One `kbResult` per goroutine, sent on the buffered `results` channel; a list
of `KbResult` models the channel contents in the order the goroutines
completed (the merge loop `for result := range results` consumes them in
exactly that order). -/

/-- The per-goroutine `kbResult` struct. -/
structure KbResult where
  answer : String
  documents : List String
  err : Option GoError
  kbId : String

/-- The "not found" sentinel answer text. -/
def notFoundSentinel : String := "ไม่พบคำตอบที่เกี่ยวข้องกับคำถามของคุณ"

/-- The mutable locals of the collection loop (`combinedAnswer`,
`allDocuments`/`documentSet`, `successCount`, `lastError`). The seen-set
`documentSet` always holds exactly the strings of `allDocuments`, so the
model keeps only the list and tests membership on it. -/
structure CollectState where
  combinedAnswer : String
  allDocuments : List String
  successCount : Nat
  lastError : Option GoError

/-- Appending one result's documents with the exact-string seen-check. -/
def dedupStep (acc : List String) (d : String) : List String :=
  if d ∈ acc then acc else acc ++ [d]

/-- One iteration of the collection loop over the fan-in channel. -/
def collectStep (st : CollectState) (r : KbResult) : CollectState :=
  match r.err with
  | some e => { st with lastError := some e }
  | none =>
    { combinedAnswer :=
        if r.answer ≠ "" ∧ r.answer ≠ notFoundSentinel then
          if st.combinedAnswer.length > 0 then
            st.combinedAnswer ++ "\n\n" ++ r.answer
          else r.answer
        else st.combinedAnswer
      allDocuments := r.documents.foldl dedupStep st.allDocuments
      successCount := st.successCount + 1
      lastError := st.lastError }

/-- The whole collection loop, from the zero-valued locals. -/
def collectResults (results : List KbResult) : CollectState :=
  results.foldl collectStep ⟨"", [], 0, none⟩

/-- `synthesizeAnswers`: the Converse call either fails, or yields a response
from which a text block may or may not be extractable. `converse` models the
call outcome (`Except.error` = API error, `some t` = extractable text). -/
def synthesizeAnswers (converse : Except GoError (Option String)) :
    Except GoError String :=
  match converse with
  | .error e =>
      .error (.plain ("synthesis converse API failed: " ++ e.errorString))
  | .ok (some t) => .ok t
  | .ok none => .error (.plain "no synthesis output received")

/-- What `QueryMultipleKnowledgeBases` returns, plus whether the synthesis
step (`synthesizeAnswers`, i.e. the generative-model Converse call) was
reached at all. -/
structure QueryOutcome where
  answer : String
  documents : List String
  err : Option GoError
  synthesisInvoked : Bool

/-- `QueryMultipleKnowledgeBases` after the goroutines have completed:
`kbIds` is the configured source list, `results` the fan-in channel contents
in completion order, `converse` the outcome the Converse call would have. -/
def QueryMultipleKnowledgeBases (kbIds : List String) (results : List KbResult)
    (converse : Except GoError (Option String)) : QueryOutcome :=
  if kbIds.length = 0 then
    ⟨"", [], some (.plain "no knowledge base IDs configured"), false⟩
  else
    let st := collectResults results
    if st.successCount = 0 then
      match st.lastError with
      | some e => ⟨"", [], some e, false⟩
      | none => ⟨"", [], some (.plain "all knowledge base queries failed"), false⟩
    else
      let finalAnswer := st.combinedAnswer
      if finalAnswer = "" then
        ⟨notFoundSentinel, st.allDocuments, none, false⟩
      else
        match synthesizeAnswers converse with
        | .ok t => ⟨t, st.allDocuments, none, true⟩
        | .error _ => ⟨finalAnswer, st.allDocuments, none, true⟩

/-! ### Document metadata resolver (document summary service)

`extractYearMonthFromUrl`, `extractVersionNumber`, `extractTopicFromUrl` and
`createSortKey`. The RE2 class `\d` is ASCII `[0-9]`. -/

/-- RE2 `\d`. -/
def isDigitChar (c : Char) : Bool := decide ('0' ≤ c) && decide (c ≤ '9')

/-- Does the pattern `/(\d{4})/(\d{2})/` match at the head of `l`? If so,
return the `"YYYY/MM"` text built by the `fmt.Sprintf("%s/%s", ...)`. -/
def ymAt : List Char → Option String
  | '/' :: a :: b :: c :: d :: '/' :: e :: f :: '/' :: _ =>
    if isDigitChar a && isDigitChar b && isDigitChar c && isDigitChar d &&
        isDigitChar e && isDigitChar f then
      some (String.mk [a, b, c, d, '/', e, f])
    else none
  | _ => none

/-- Leftmost occurrence of the period pattern (`FindStringSubmatch`). -/
def findYM : List Char → Option String
  | [] => none
  | c :: rest =>
    match ymAt (c :: rest) with
    | some s => some s
    | none => findYM rest

/-- `extractYearMonthFromUrl`: first `/YYYY/MM/` segment, else `"0000/00"`. -/
def extractYearMonthFromUrl (url : String) : String :=
  (findYM url.data).getD "0000/00"

/-- The part after the last `/` (the last element of `strings.Split(url, "/")`). -/
def lastPart (l : List Char) : List Char :=
  (l.reverse.takeWhile (· ≠ '/')).reverse

/-- `strings.TrimSuffix`. -/
def trimSuffixList (l suffix : List Char) : List Char :=
  if suffix <:+ l then l.take (l.length - suffix.length) else l

/-- The sequential extension stripping applied to the filename. -/
def stripExtensions (l : List Char) : List Char :=
  let l := trimSuffixList l ".pdf".data
  let l := trimSuffixList l ".PDF".data
  let l := trimSuffixList l ".doc".data
  let l := trimSuffixList l ".docx".data
  trimSuffixList l ".txt".data

/-- The group of a match of `-(\d+)$`: the maximal trailing digit run,
nonempty and preceded by a `-`. -/
def trailingVersionToken (l : List Char) : Option (List Char) :=
  let ds := (l.reverse.takeWhile isDigitChar).reverse
  if ds = [] then none
  else
    match l.reverse.dropWhile isDigitChar with
    | '-' :: _ => some ds
    | _ => none

/-- Decimal value of a digit run. -/
def digitsToNat (ds : List Char) : Nat :=
  ds.foldl (fun acc c => acc * 10 + (c.toNat - 48)) 0

/-- Largest value `fmt.Sscanf("%d", &version)` can store in Go's 64-bit
`int`; on overflow the scan errors and `version` keeps its zero value. -/
def maxGoInt : Nat := 9223372036854775807

/-- `extractVersionNumber`. -/
def extractVersionNumber (url : String) : Nat :=
  let filename := stripExtensions (lastPart url.data)
  match trailingVersionToken filename with
  | some ds => if digitsToNat ds ≤ maxGoInt then digitsToNat ds else 0
  | none => 0

/-- `extractTopicFromUrl`: filename minus extension minus `-(\d+)$` suffix. -/
def extractTopicFromUrl (url : String) : String :=
  let filename := stripExtensions (lastPart url.data)
  match trailingVersionToken filename with
  | some ds => String.mk (filename.take (filename.length - (ds.length + 1)))
  | none => String.mk filename

/-- Decimal digit character (`fmt` `%d` digits). -/
def digitChar (n : Nat) : Char := Char.ofNat (48 + n)

/-- Decimal representation of `n`; the fuel (any bound above the digit
count, here `n + 1`) only drives the recursion. -/
def decimalDigitsAux : Nat → Nat → List Char
  | 0, _ => []
  | fuel + 1, n =>
    if n < 10 then [digitChar n]
    else decimalDigitsAux fuel (n / 10) ++ [digitChar (n % 10)]

/-- Decimal representation of `n` (`fmt` `%d`). -/
def decimalDigits (n : Nat) : List Char := decimalDigitsAux (n + 1) n

/-- `%03d`: decimal digits left-padded with `0` to width 3. -/
def pad3 (n : Nat) : List Char :=
  List.replicate (3 - (decimalDigits n).length) '0' ++ decimalDigits n

/-- `createSortKey`: `fmt.Sprintf("%s-%03d", strings.ReplaceAll(yearMonth,
"/", ""), version)`. -/
def createSortKey (yearMonth : String) (version : Nat) : String :=
  String.mk ((yearMonth.data.filter (· ≠ '/')) ++ '-' :: pad3 version)

/-! ### Markdown normaliser (`CleanMarkdown`)

Each `regexp.ReplaceAllString` pass is embedded as a left-to-right scan with
RE2 leftmost-match semantics, written as a state machine so it evaluates by
kernel reduction. -/

/-- RE2 `\s`: `[\t\n\f\r ]`. -/
def isGoSpace (c : Char) : Bool :=
  c = '\t' || c = '\n' || c = '\x0c' || c = '\r' || c = ' '

/-- Go `unicode.IsSpace` (the White_Space property). -/
def isUniSpace (c : Char) : Bool :=
  (9 ≤ c.toNat && c.toNat ≤ 13) || c.toNat = 32 || c.toNat = 133 ||
  c.toNat = 160 || c.toNat = 5760 ||
  (8192 ≤ c.toNat && c.toNat ≤ 8202) || c.toNat = 8232 ||
  c.toNat = 8233 || c.toNat = 8239 || c.toNat = 8287 || c.toNat = 12288

/-- Scanner state for the `(?m)^#+\s*` pass: at a line start, mid-line,
inside the `#+` run, or greedily swallowing the `\s*` run (remembering
whether the last swallowed space was a newline, which decides whether the
position after the match is again a line start). -/
inductive HeaderSt where
  | lineStart
  | midLine
  | hashes
  | swallow (lastNL : Bool)

/-- One left-to-right scan removing every `(?m)^#+\s*` match. -/
def stripHeadersGo : HeaderSt → List Char → List Char
  | _, [] => []
  | .lineStart, c :: rest =>
    if c = '#' then stripHeadersGo .hashes rest
    else c :: stripHeadersGo (if c = '\n' then .lineStart else .midLine) rest
  | .midLine, c :: rest =>
    c :: stripHeadersGo (if c = '\n' then .lineStart else .midLine) rest
  | .hashes, c :: rest =>
    if c = '#' then stripHeadersGo .hashes rest
    else if isGoSpace c then stripHeadersGo (.swallow (c = '\n')) rest
    else c :: stripHeadersGo (if c = '\n' then .lineStart else .midLine) rest
  | .swallow lastNL, c :: rest =>
    if isGoSpace c then stripHeadersGo (.swallow (c = '\n')) rest
    else if lastNL ∧ c = '#' then stripHeadersGo .hashes rest
    else c :: stripHeadersGo (if c = '\n' then .lineStart else .midLine) rest

/-- `(?m)^#+\s*` → `""` (headers pass). -/
def stripHeaders (l : List Char) : List Char := stripHeadersGo .lineStart l

/-- Scanner state for the `\*\*([^*]+)\*\*` / `__([^_]+)__` pass: default,
inside a run of `k` marker characters, inside the captured group, or after a
single marker inside the group (awaiting the second closing marker). -/
inductive PairSt where
  | norm
  | stars (k : Nat)
  | run (buf : List Char)
  | runStar (buf : List Char)

/-- One scan replacing every `sym sym ([^sym]+) sym sym` match with its
group (RE2 leftmost semantics: a match opens at the last two markers of a
marker run, closes at the first two of the closing run). -/
def pairPass (sym : Char) : PairSt → List Char → List Char
  | .norm, [] => []
  | .norm, c :: rest =>
    if c = sym then pairPass sym (.stars 1) rest
    else c :: pairPass sym .norm rest
  | .stars k, [] => List.replicate k sym
  | .stars k, c :: rest =>
    if c = sym then pairPass sym (.stars (k + 1)) rest
    else if 2 ≤ k then
      List.replicate (k - 2) sym ++ pairPass sym (.run [c]) rest
    else List.replicate k sym ++ c :: pairPass sym .norm rest
  | .run buf, [] => sym :: sym :: buf
  | .run buf, c :: rest =>
    if c = sym then pairPass sym (.runStar buf) rest
    else pairPass sym (.run (buf ++ [c])) rest
  | .runStar buf, [] => sym :: sym :: buf ++ [sym]
  | .runStar buf, c :: rest =>
    if c = sym then buf ++ pairPass sym .norm rest
    else sym :: sym :: buf ++ [sym] ++ c :: pairPass sym .norm rest

/-- Scanner state for the `\*([^*]+)\*` / `_([^_]+)_` pass. -/
inductive SingleSt where
  | norm
  | stars (k : Nat)
  | run (buf : List Char)

/-- One scan replacing every `sym ([^sym]+) sym` match with its group. -/
def singlePass (sym : Char) : SingleSt → List Char → List Char
  | .norm, [] => []
  | .norm, c :: rest =>
    if c = sym then singlePass sym (.stars 1) rest
    else c :: singlePass sym .norm rest
  | .stars k, [] => List.replicate k sym
  | .stars k, c :: rest =>
    if c = sym then singlePass sym (.stars (k + 1)) rest
    else List.replicate (k - 1) sym ++ singlePass sym (.run [c]) rest
  | .run buf, [] => sym :: buf
  | .run buf, c :: rest =>
    if c = sym then buf ++ singlePass sym .norm rest
    else singlePass sym (.run (buf ++ [c])) rest

/-- Scanner state for `\n\n+` → `" "`: `true` while swallowing the rest of
an already-replaced newline run. -/
def collapseNNGo : Bool → List Char → List Char
  | _, [] => []
  | true, c :: rest =>
    if c = '\n' then collapseNNGo true rest
    else c :: collapseNNGo false rest
  | false, '\n' :: '\n' :: rest => ' ' :: collapseNNGo true rest
  | false, c :: rest => c :: collapseNNGo false rest

/-- `\n\n+` → `" "`. -/
def collapseNN (l : List Char) : List Char := collapseNNGo false l

/-- `strings.ReplaceAll(text, "\n", " ")`. -/
def replaceNewlines (l : List Char) : List Char :=
  l.map fun c => if c = '\n' then ' ' else c

/-- `\s+` → `" "`: `true` while inside an already-replaced whitespace run. -/
def collapseWSGo : Bool → List Char → List Char
  | _, [] => []
  | inRun, c :: rest =>
    if isGoSpace c then
      if inRun then collapseWSGo true rest
      else ' ' :: collapseWSGo true rest
    else c :: collapseWSGo false rest

/-- `\s+` → `" "`. -/
def collapseWS (l : List Char) : List Char := collapseWSGo false l

/-- `strings.TrimSpace`. -/
def trimSpace (l : List Char) : List Char :=
  ((l.dropWhile isUniSpace).reverse.dropWhile isUniSpace).reverse

/-- `CleanMarkdown`: the full pass pipeline of utils' markdown stripper. -/
def CleanMarkdown (text : String) : String :=
  String.mk (trimSpace (collapseWS (replaceNewlines (collapseNN
    (singlePass '_' .norm (singlePass '*' .norm
      (pairPass '_' .norm (pairPass '*' .norm
        (stripHeaders text.data)))))))))

/-! ## Theorems

### C4 / C5: the retry executor -/

/-- Helper: with every invocation failing retryably, each level of
`retryFrom` burns one attempt and keeps the latest error. -/
theorem retryFrom_all_retryable (op : Nat → GoError)
    (hr : ∀ k, isRetryableErr (op k) = true) :
    ∀ fuel idx, 1 ≤ fuel →
      retryFrom (fun k => some (op k)) fuel idx =
        (some (op (idx + fuel - 1)), fuel, fuel - 1) := by
  intro fuel
  induction fuel with
  | zero => intro idx h; omega
  | succ n ih =>
    intro idx _
    by_cases hn : n = 0
    · subst hn
      simp [retryFrom, hr idx]
    · have h1 : 1 ≤ n := Nat.one_le_iff_ne_zero.mpr hn
      have := ih (idx + 1) h1
      simp only [retryFrom, hr idx, if_true, if_neg hn, this]
      have harg : idx + 1 + n - 1 = idx + (n + 1) - 1 := by omega
      simp [harg]
      omega

/-- C4: for every `maxAttempts` between 1 and 10 and an operation failing
with a retryable error on every invocation, `RetryWithBackoff` (uncancelled
context) invokes the operation exactly `maxAttempts` times and returns the
error of the final attempt. -/
theorem retry_exhausts_attempts (maxAttempts : Nat) (op : Nat → GoError)
    (h1 : 1 ≤ maxAttempts) (h2 : maxAttempts ≤ 10)
    (hr : ∀ k, isRetryableErr (op k) = true) :
    (RetryWithBackoff maxAttempts fun k => some (op k)).2.1 = maxAttempts ∧
    (RetryWithBackoff maxAttempts fun k => some (op k)).1 =
      some (op (maxAttempts - 1)) := by
  have h := retryFrom_all_retryable op hr maxAttempts 0 h1
  rw [RetryWithBackoff, h]
  exact ⟨rfl, by simp⟩

/-- Witness for C4 at `maxAttempts = 3` and the always-retryable
`"timeout"` error. -/
theorem retry_exhausts_attempts_witness :
    (RetryWithBackoff 3 fun _ => some (.plain "timeout")).2.1 = 3 ∧
    (RetryWithBackoff 3 fun _ => some (.plain "timeout")).1 =
      some (.plain "timeout") :=
  retry_exhausts_attempts 3 (fun _ => .plain "timeout") (by decide) (by decide)
    (fun _ => by rfl)

/-- C5: an operation whose first invocation fails non-retryably is invoked
exactly once, no backoff sleep is performed, and that error is returned,
for every `maxAttempts ≥ 1`. -/
theorem retry_nonretryable_once (maxAttempts : Nat) (op : Nat → Option GoError)
    (e : GoError) (h1 : 1 ≤ maxAttempts) (h0 : op 0 = some e)
    (hnr : isRetryableErr e = false) :
    RetryWithBackoff maxAttempts op = (some e, 1, 0) := by
  obtain ⟨n, rfl⟩ : ∃ n, maxAttempts = n + 1 := ⟨maxAttempts - 1, by omega⟩
  simp [RetryWithBackoff, retryFrom, h0, hnr]

/-- Witness for C5: a validation-style error stops after one invocation
even with `maxAttempts = 5`. -/
theorem retry_nonretryable_once_witness :
    RetryWithBackoff 5 (fun _ => some (.plain "bad input")) =
      (some (.plain "bad input"), 1, 0) :=
  retry_nonretryable_once 5 _ (.plain "bad input") (by decide) rfl (by rfl)

/-! ### C3: the error classifier -/

/-- `findSubstring` of retry.go is exactly substring occurrence. -/
theorem goFindSubstring_iff (s p : List Char) :
    goFindSubstring s p = true ↔ p <:+: s := by
  simp only [goFindSubstring, List.any_eq_true, List.mem_range, decide_eq_true_eq]
  constructor
  · rintro ⟨i, hi, h⟩
    refine ⟨s.take i, (s.drop i).drop p.length, ?_⟩
    have hmid := List.take_append_drop p.length (s.drop i)
    rw [h] at hmid
    rw [List.append_assoc, hmid, List.take_append_drop]
  · rintro ⟨u, v, huv⟩
    have hlen := congrArg List.length huv
    simp only [List.length_append] at hlen
    refine ⟨u.length, by omega, ?_⟩
    rw [← huv, List.append_assoc, List.drop_left, List.take_left]

/-- The custom `contains` of retry.go is exactly substring occurrence. -/
theorem goContains_iff (s p : List Char) : goContains s p = true ↔ p <:+: s := by
  simp only [goContains, Bool.and_eq_true, Bool.or_eq_true, decide_eq_true_eq,
    goFindSubstring_iff]
  constructor
  · rintro ⟨hle, h | ⟨hlt, (h | h) | h⟩⟩
    · rw [h]
    · refine ⟨[], s.drop p.length, ?_⟩
      have hpre := List.take_append_drop p.length s
      rw [h] at hpre
      rw [List.nil_append, hpre]
    · refine ⟨s.take (s.length - p.length), [], ?_⟩
      have hsuf := List.take_append_drop (s.length - p.length) s
      rw [h] at hsuf
      rw [List.append_nil, hsuf]
    · exact h
  · intro h
    refine ⟨h.sublist.length_le, ?_⟩
    by_cases hsp : s = p
    · exact Or.inl hsp
    · refine Or.inr ⟨?_, Or.inr h⟩
      obtain ⟨u, v, huv⟩ := h
      have hlen := congrArg List.length huv
      simp only [List.length_append] at hlen
      rcases Nat.lt_or_ge p.length s.length with hl | hge
      · exact hl
      · exfalso
        have hu : u = [] := List.length_eq_zero.mp (by omega)
        have hv : v = [] := List.length_eq_zero.mp (by omega)
        rw [hu, hv, List.nil_append, List.append_nil] at huv
        exact hsp huv.symm

/-- The message fallback is exactly: some transient marker occurs in the
message. -/
theorem messageRetryable_iff (msg : String) :
    messageRetryable msg = true ↔
      ∃ p ∈ retryablePatterns, p.data <:+: msg.data := by
  simp only [messageRetryable, List.any_eq_true, goContains_iff, String.toList]

/-- Unfolding of the classifier on a structured error without a cause. -/
theorem isRetryableErr_bedrock_none (code msg : String) :
    isRetryableErr (.bedrock code msg none) =
      if code = ErrCodeThrottling then true
      else if code = ErrCodeAWSService then true
      else if code = ErrCodeValidation then false
      else if code = ErrCodeEmbedding ∨ code = ErrCodeKnowledgeBase then false
      else messageRetryable (GoError.errorString (.bedrock code msg none)) := rfl

/-- Unfolding of the classifier on a structured error with a cause. -/
theorem isRetryableErr_bedrock_some (code msg : String) (c : GoError) :
    isRetryableErr (.bedrock code msg (some c)) =
      if code = ErrCodeThrottling then true
      else if code = ErrCodeAWSService then true
      else if code = ErrCodeValidation then false
      else if code = ErrCodeEmbedding ∨ code = ErrCodeKnowledgeBase then
        isRetryableErr c
      else messageRetryable
        (GoError.errorString (.bedrock code msg (some c))) := rfl

/-- The codes the classifier's switch handles. -/
def handledCodes : List String :=
  [ErrCodeThrottling, ErrCodeAWSService, ErrCodeValidation,
   ErrCodeEmbedding, ErrCodeKnowledgeBase]

/-- "Carries no handled structured code": an opaque error, or a
`BedrockError` whose code is not one of the handled ones. -/
def carriesNoHandledCode : GoError → Prop
  | .bedrock code _ _ => code ∉ handledCodes
  | .plain _ => True


/-- C3: `isRetryable` is true iff (a) the code is Throttling or the generic
AWS-service code, or (b) a wrapper code whose wrapped cause is recursively
retryable, or (c) no handled structured code and the textual message has a
transient marker; a Validation code is never retryable, a wrapper with no
cause is not retryable, and a nil error is not retryable. -/
theorem isRetryable_characterization :
    (∀ e : Option GoError,
      isRetryable e = true ↔
        ((∃ code msg cause, e = some (.bedrock code msg cause) ∧
            (code = ErrCodeThrottling ∨ code = ErrCodeAWSService)) ∨
         (∃ code msg c, e = some (.bedrock code msg (some c)) ∧
            (code = ErrCodeEmbedding ∨ code = ErrCodeKnowledgeBase) ∧
            isRetryable (some c) = true) ∨
         (∃ err, e = some err ∧ carriesNoHandledCode err ∧
            ∃ p ∈ retryablePatterns, p.data <:+: err.errorString.data))) ∧
    (∀ msg cause, isRetryable (some (.bedrock ErrCodeValidation msg cause)) = false) ∧
    (∀ msg, isRetryable (some (.bedrock ErrCodeEmbedding msg none)) = false) ∧
    (∀ msg, isRetryable (some (.bedrock ErrCodeKnowledgeBase msg none)) = false) ∧
    isRetryable none = false := by
  refine ⟨?_, ?_, ?_, ?_, rfl⟩
  · intro e
    match e with
    | none => simp [isRetryable]
    | some (.plain m) =>
      show isRetryableErr (.plain m) = true ↔ _
      have hunf : isRetryableErr (.plain m) =
          messageRetryable (GoError.errorString (.plain m)) := rfl
      rw [hunf, messageRetryable_iff]
      constructor
      · rintro ⟨p, hp, hinf⟩
        exact Or.inr (Or.inr ⟨.plain m, rfl, trivial, p, hp, hinf⟩)
      · rintro (⟨code, msg, cause, h, _⟩ | ⟨code, msg, c, h, _⟩ |
          ⟨err, heq, _, p, hp, hinf⟩)
        · simp at h
        · simp at h
        · obtain rfl : GoError.plain m = err := Option.some.inj heq
          exact ⟨p, hp, hinf⟩
    | some (.bedrock code msg none) =>
      show isRetryableErr (.bedrock code msg none) = true ↔ _
      rw [isRetryableErr_bedrock_none]
      by_cases hThr : code = ErrCodeThrottling
      · rw [if_pos hThr]
        constructor
        · exact fun _ => Or.inl ⟨code, msg, none, rfl, Or.inl hThr⟩
        · exact fun _ => rfl
      · rw [if_neg hThr]
        by_cases hAws : code = ErrCodeAWSService
        · rw [if_pos hAws]
          constructor
          · exact fun _ => Or.inl ⟨code, msg, none, rfl, Or.inr hAws⟩
          · exact fun _ => rfl
        · rw [if_neg hAws]
          by_cases hVal : code = ErrCodeValidation
          · rw [if_pos hVal]
            constructor
            · intro h; exact (Bool.false_ne_true h).elim
            · rintro (⟨c', m', cz, h, hc⟩ | ⟨c', m', c2, h, hc, _⟩ |
                ⟨err, heq, hnoh, _⟩)
              · simp only [Option.some.injEq, GoError.bedrock.injEq] at h
                obtain ⟨rfl, rfl, rfl⟩ := h
                subst hVal
                rcases hc with hc | hc <;> exact absurd hc (by decide)
              · simp at h
              · obtain rfl : GoError.bedrock code msg none = err :=
                  Option.some.inj heq
                rw [hVal] at hnoh
                exact absurd (by decide : ErrCodeValidation ∈ handledCodes) hnoh
          · rw [if_neg hVal]
            by_cases hWrap : code = ErrCodeEmbedding ∨ code = ErrCodeKnowledgeBase
            · rw [if_pos hWrap]
              constructor
              · intro h; exact (Bool.false_ne_true h).elim
              · rintro (⟨c', m', cz, h, hc⟩ | ⟨c', m', c2, h, hc, hret⟩ |
                  ⟨err, heq, hnoh, _⟩)
                · simp only [Option.some.injEq, GoError.bedrock.injEq] at h
                  obtain ⟨rfl, rfl, rfl⟩ := h
                  rcases hWrap with hw | hw <;> subst hw <;>
                    rcases hc with hc | hc <;> exact absurd hc (by decide)
                · simp at h
                · obtain rfl : GoError.bedrock code msg none = err :=
                    Option.some.inj heq
                  rcases hWrap with hw | hw <;> rw [hw] at hnoh
                  · exact absurd (by decide : ErrCodeEmbedding ∈ handledCodes) hnoh
                  · exact absurd
                      (by decide : ErrCodeKnowledgeBase ∈ handledCodes) hnoh
            · rw [if_neg hWrap]
              rw [messageRetryable_iff]
              push_neg at hWrap
              constructor
              · rintro ⟨p, hp, hinf⟩
                refine Or.inr (Or.inr ⟨.bedrock code msg none, rfl, ?_, p, hp, hinf⟩)
                show code ∉ handledCodes
                simp only [handledCodes, List.mem_cons, List.not_mem_nil,
                  or_false, not_or]
                exact ⟨hThr, hAws, hVal, hWrap.1, hWrap.2⟩
              · rintro (⟨c', m', cz, h, hc⟩ | ⟨c', m', c2, h, hc, _⟩ |
                  ⟨err, heq, hnoh, p, hp, hinf⟩)
                · simp only [Option.some.injEq, GoError.bedrock.injEq] at h
                  obtain ⟨rfl, rfl, rfl⟩ := h
                  rcases hc with hc | hc
                  · exact absurd hc hThr
                  · exact absurd hc hAws
                · simp at h
                · obtain rfl : GoError.bedrock code msg none = err :=
                    Option.some.inj heq
                  exact ⟨p, hp, hinf⟩
    | some (.bedrock code msg (some c)) =>
      show isRetryableErr (.bedrock code msg (some c)) = true ↔ _
      rw [isRetryableErr_bedrock_some]
      by_cases hThr : code = ErrCodeThrottling
      · rw [if_pos hThr]
        constructor
        · exact fun _ => Or.inl ⟨code, msg, some c, rfl, Or.inl hThr⟩
        · exact fun _ => rfl
      · rw [if_neg hThr]
        by_cases hAws : code = ErrCodeAWSService
        · rw [if_pos hAws]
          constructor
          · exact fun _ => Or.inl ⟨code, msg, some c, rfl, Or.inr hAws⟩
          · exact fun _ => rfl
        · rw [if_neg hAws]
          by_cases hVal : code = ErrCodeValidation
          · rw [if_pos hVal]
            constructor
            · intro h; exact (Bool.false_ne_true h).elim
            · rintro (⟨c', m', cz, h, hc⟩ | ⟨c', m', c2, h, hc, _⟩ |
                ⟨err, heq, hnoh, _⟩)
              · simp only [Option.some.injEq, GoError.bedrock.injEq] at h
                obtain ⟨rfl, rfl, rfl⟩ := h
                subst hVal
                rcases hc with hc | hc <;> exact absurd hc (by decide)
              · simp only [Option.some.injEq, GoError.bedrock.injEq,
                  Option.some.injEq] at h
                obtain ⟨rfl, rfl, rfl⟩ := h
                subst hVal
                rcases hc with hc | hc <;> exact absurd hc (by decide)
              · obtain rfl : GoError.bedrock code msg (some c) = err :=
                  Option.some.inj heq
                rw [hVal] at hnoh
                exact absurd (by decide : ErrCodeValidation ∈ handledCodes) hnoh
          · rw [if_neg hVal]
            by_cases hWrap : code = ErrCodeEmbedding ∨ code = ErrCodeKnowledgeBase
            · rw [if_pos hWrap]
              constructor
              · intro h
                exact Or.inr (Or.inl ⟨code, msg, c, rfl, hWrap, h⟩)
              · rintro (⟨c', m', cz, h, hc⟩ | ⟨c', m', c2, h, hc, hret⟩ |
                  ⟨err, heq, hnoh, _⟩)
                · simp only [Option.some.injEq, GoError.bedrock.injEq] at h
                  obtain ⟨rfl, rfl, rfl⟩ := h
                  rcases hWrap with hw | hw <;> subst hw <;>
                    rcases hc with hc | hc <;> exact absurd hc (by decide)
                · simp only [Option.some.injEq, GoError.bedrock.injEq,
                    Option.some.injEq] at h
                  obtain ⟨rfl, rfl, rfl⟩ := h
                  exact hret
                · obtain rfl : GoError.bedrock code msg (some c) = err :=
                    Option.some.inj heq
                  rcases hWrap with hw | hw <;> rw [hw] at hnoh
                  · exact absurd (by decide : ErrCodeEmbedding ∈ handledCodes) hnoh
                  · exact absurd
                      (by decide : ErrCodeKnowledgeBase ∈ handledCodes) hnoh
            · rw [if_neg hWrap]
              rw [messageRetryable_iff]
              push_neg at hWrap
              constructor
              · rintro ⟨p, hp, hinf⟩
                refine Or.inr (Or.inr
                  ⟨.bedrock code msg (some c), rfl, ?_, p, hp, hinf⟩)
                show code ∉ handledCodes
                simp only [handledCodes, List.mem_cons, List.not_mem_nil,
                  or_false, not_or]
                exact ⟨hThr, hAws, hVal, hWrap.1, hWrap.2⟩
              · rintro (⟨c', m', cz, h, hc⟩ | ⟨c', m', c2, h, hc, _⟩ |
                  ⟨err, heq, hnoh, p, hp, hinf⟩)
                · simp only [Option.some.injEq, GoError.bedrock.injEq] at h
                  obtain ⟨rfl, rfl, rfl⟩ := h
                  rcases hc with hc | hc
                  · exact absurd hc hThr
                  · exact absurd hc hAws
                · simp only [Option.some.injEq, GoError.bedrock.injEq,
                    Option.some.injEq] at h
                  obtain ⟨rfl, rfl, rfl⟩ := h
                  rcases hc with hc | hc
                  · exact absurd hc hWrap.1
                  · exact absurd hc hWrap.2
                · obtain rfl : GoError.bedrock code msg (some c) = err :=
                    Option.some.inj heq
                  exact ⟨p, hp, hinf⟩
  · intro msg cause
    match cause with
    | none =>
      show isRetryableErr (.bedrock ErrCodeValidation msg none) = false
      rw [isRetryableErr_bedrock_none, if_neg (by decide), if_neg (by decide),
        if_pos rfl]
    | some c =>
      show isRetryableErr (.bedrock ErrCodeValidation msg (some c)) = false
      rw [isRetryableErr_bedrock_some, if_neg (by decide), if_neg (by decide),
        if_pos rfl]
  · intro msg
    show isRetryableErr (.bedrock ErrCodeEmbedding msg none) = false
    rw [isRetryableErr_bedrock_none, if_neg (by decide), if_neg (by decide),
      if_neg (by decide), if_pos (Or.inl rfl)]
  · intro msg
    show isRetryableErr (.bedrock ErrCodeKnowledgeBase msg none) = false
    rw [isRetryableErr_bedrock_none, if_neg (by decide), if_neg (by decide),
      if_neg (by decide), if_pos (Or.inr rfl)]

/-! ### C1: merge order -/

/-- A result that contributes answer text to the merge: no error, answer
non-empty and not the sentinel. -/
def contributes (r : KbResult) : Bool :=
  r.err.isNone && decide (r.answer ≠ "") && decide (r.answer ≠ notFoundSentinel)

/-- The contributed answer texts, in fan-in (completion) order. -/
def contributions (results : List KbResult) : List String :=
  (results.filter contributes).map KbResult.answer

/-- Blank-line concatenation of answer texts (the spec's merged answer). -/
def joinWithBlankLine : List String → String
  | [] => ""
  | x :: xs => xs.foldl (fun acc y => acc ++ "\n\n" ++ y) x

/-- How one loop iteration updates `combinedAnswer`. -/
def stepAns (acc : String) (r : KbResult) : String :=
  match r.err with
  | some _ => acc
  | none =>
    if r.answer ≠ "" ∧ r.answer ≠ notFoundSentinel then
      if acc.length > 0 then acc ++ "\n\n" ++ r.answer else r.answer
    else acc

theorem collectStep_answer (st : CollectState) (r : KbResult) :
    (collectStep st r).combinedAnswer = stepAns st.combinedAnswer r := by
  cases h : r.err <;> simp [collectStep, stepAns, h]

theorem foldl_collectStep_answer (results : List KbResult) :
    ∀ st : CollectState,
      (results.foldl collectStep st).combinedAnswer =
        results.foldl stepAns st.combinedAnswer := by
  induction results with
  | nil => intro st; rfl
  | cons r rs ih =>
    intro st
    rw [List.foldl_cons, List.foldl_cons, ih, collectStep_answer]

theorem string_length_pos_iff (s : String) : s.length > 0 ↔ s ≠ "" := by
  constructor
  · intro h hc
    rw [hc, String.length_empty] at h
    exact Nat.lt_irrefl 0 h
  · intro h
    have hd : s.data ≠ [] := by
      intro hc
      apply h
      apply String.toList_inj.mp
      rw [String.toList_empty]
      exact hc
    have hz : s.data.length ≠ 0 := fun hz => hd (List.length_eq_zero.mp hz)
    have hlen : s.length = s.data.length := rfl
    omega

theorem string_append_ne_empty (a b : String) (h : a ≠ "") : a ++ b ≠ "" := by
  rw [← string_length_pos_iff] at h ⊢
  rw [String.length_append]
  omega

theorem foldl_stepAns_of_ne (results : List KbResult) :
    ∀ a : String, a ≠ "" →
      results.foldl stepAns a =
        (contributions results).foldl (fun acc y => acc ++ "\n\n" ++ y) a := by
  induction results with
  | nil => intro a _; rfl
  | cons r rs ih =>
    intro a ha
    rw [List.foldl_cons]
    cases h : r.err with
    | some e =>
      have hc : contributes r = false := by simp [contributes, h]
      have h1 : stepAns a r = a := by simp [stepAns, h]
      have h2 : contributions (r :: rs) = contributions rs := by
        simp [contributions, List.filter_cons, hc]
      rw [h1, h2]
      exact ih a ha
    | none =>
      by_cases hans : r.answer ≠ "" ∧ r.answer ≠ notFoundSentinel
      · have hc : contributes r = true := by
          simp [contributes, h, hans.1, hans.2]
        have hlen : a.length > 0 := (string_length_pos_iff a).mpr ha
        have hstep : stepAns a r = a ++ "\n\n" ++ r.answer := by
          simp [stepAns, h, hans, hlen]
        have h2 : contributions (r :: rs) = r.answer :: contributions rs := by
          simp [contributions, List.filter_cons, hc]
        rw [hstep, h2, List.foldl_cons]
        exact ih _ (string_append_ne_empty _ _ (string_append_ne_empty a _ ha))
      · have hc : contributes r = false := by
          simp only [contributes, h, Option.isNone_none, Bool.true_and]
          rcases not_and_or.mp hans with hx | hx <;> push_neg at hx <;>
            simp [hx]
        have h1 : stepAns a r = a := by simp [stepAns, h, hans]
        have h2 : contributions (r :: rs) = contributions rs := by
          simp [contributions, List.filter_cons, hc]
        rw [h1, h2]
        exact ih a ha

/-- C1 (amended): the merged answer concatenates the non-empty, non-sentinel
answers of the error-free results in fan-in channel order — i.e. in task
completion order, not configuration order. -/
theorem combinedAnswer_eq_joinWithBlankLine (results : List KbResult) :
    (collectResults results).combinedAnswer =
      joinWithBlankLine (contributions results) := by
  rw [collectResults, foldl_collectStep_answer]
  show results.foldl stepAns "" = _
  induction results with
  | nil => rfl
  | cons r rs ih =>
    rw [List.foldl_cons]
    cases h : r.err with
    | some e =>
      have hc : contributes r = false := by simp [contributes, h]
      have h1 : stepAns "" r = "" := by simp [stepAns, h]
      have h2 : contributions (r :: rs) = contributions rs := by
        simp [contributions, List.filter_cons, hc]
      rw [h1, h2]
      exact ih
    | none =>
      by_cases hans : r.answer ≠ "" ∧ r.answer ≠ notFoundSentinel
      · have hc : contributes r = true := by
          simp [contributes, h, hans.1, hans.2]
        have hstep : stepAns "" r = r.answer := by
          simp [stepAns, h, hans]
        have h2 : contributions (r :: rs) = r.answer :: contributions rs := by
          simp [contributions, List.filter_cons, hc]
        rw [hstep, h2]
        rw [foldl_stepAns_of_ne rs r.answer hans.1]
        rfl
      · have hc : contributes r = false := by
          simp only [contributes, h, Option.isNone_none, Bool.true_and]
          rcases not_and_or.mp hans with hx | hx <;> push_neg at hx <;>
            simp [hx]
        have h1 : stepAns "" r = "" := by simp [stepAns, h, hans]
        have h2 : contributions (r :: rs) = contributions rs := by
          simp [contributions, List.filter_cons, hc]
        rw [h1, h2]
        exact ih

/-- C1 counterexample: the same two per-source results delivered in the two
possible completion orders (a permutation of the channel contents) produce
different merged answers, and only one of them matches the configuration
order `["kb-a", "kb-b"]`; the merge is completion-order dependent. -/
theorem mergeOrder_counterexample :
    List.Perm
      [(⟨"Answer A", [], none, "kb-a"⟩ : KbResult),
       ⟨"Answer B", [], none, "kb-b"⟩]
      [⟨"Answer B", [], none, "kb-b"⟩, ⟨"Answer A", [], none, "kb-a"⟩] ∧
    (QueryMultipleKnowledgeBases ["kb-a", "kb-b"]
        [⟨"Answer A", [], none, "kb-a"⟩, ⟨"Answer B", [], none, "kb-b"⟩]
        (.error (.plain "model unavailable"))).answer = "Answer A\n\nAnswer B" ∧
    (QueryMultipleKnowledgeBases ["kb-a", "kb-b"]
        [⟨"Answer B", [], none, "kb-b"⟩, ⟨"Answer A", [], none, "kb-a"⟩]
        (.error (.plain "model unavailable"))).answer = "Answer B\n\nAnswer A" := by
  refine ⟨List.Perm.swap _ _ _, ?_, ?_⟩ <;> rfl

/-! ### C6 / C7: error propagation and synthesis fallback -/

/-- A per-source query that completed without error. -/
def isSuccess (r : KbResult) : Bool := r.err.isNone

/-- The error of the last errored result in fan-in order, if any. -/
def lastObservedError : List KbResult → Option GoError
  | [] => none
  | r :: rs =>
    match lastObservedError rs with
    | some e => some e
    | none => r.err

theorem collect_successCount (results : List KbResult) :
    ∀ st : CollectState,
      (results.foldl collectStep st).successCount =
        st.successCount + (results.filter isSuccess).length := by
  induction results with
  | nil => intro st; simp
  | cons r rs ih =>
    intro st
    rw [List.foldl_cons, ih, List.filter_cons]
    cases h : r.err with
    | some e =>
      have hs : isSuccess r = false := by simp [isSuccess, h]
      have hst : (collectStep st r).successCount = st.successCount := by
        simp [collectStep, h]
      rw [hst, hs]
      simp
    | none =>
      have hs : isSuccess r = true := by simp [isSuccess, h]
      have hst : (collectStep st r).successCount = st.successCount + 1 := by
        simp [collectStep, h]
      rw [hst, hs]
      simp
      omega

theorem collect_lastError (results : List KbResult) :
    ∀ st : CollectState,
      (results.foldl collectStep st).lastError =
        match lastObservedError results with
        | some e => some e
        | none => st.lastError := by
  induction results with
  | nil => intro st; rfl
  | cons r rs ih =>
    intro st
    rw [List.foldl_cons, ih]
    have hstep : (collectStep st r).lastError =
        match r.err with
        | some e => some e
        | none => st.lastError := by
      cases h : r.err <;> simp [collectStep, h]
    rw [hstep]
    show _ = match lastObservedError (r :: rs) with
      | some e => some e
      | none => st.lastError
    rw [lastObservedError]
    cases lastObservedError rs <;> cases h : r.err <;> simp

theorem collectResults_successCount (results : List KbResult) :
    (collectResults results).successCount = (results.filter isSuccess).length := by
  rw [collectResults, collect_successCount]
  simp

theorem collectResults_lastError (results : List KbResult) :
    (collectResults results).lastError = lastObservedError results := by
  rw [collectResults, collect_lastError]
  cases lastObservedError results <;> rfl

theorem all_fail_iff_successCount_zero (results : List KbResult) :
    (∀ r ∈ results, r.err ≠ none) ↔
      (collectResults results).successCount = 0 := by
  rw [collectResults_successCount, List.length_eq_zero, List.filter_eq_nil_iff]
  constructor
  · intro h r hr hs
    have hnone : r.err = none := by
      simpa [isSuccess, Option.isNone_iff_eq_none] using hs
    exact h r hr hnone
  · intro h r hr hc
    exact h r hr (by simp [isSuccess, hc])

/-- Evaluation of the orchestrator when every source failed. -/
theorem qmkb_all_fail (kbIds : List String) (results : List KbResult)
    (converse : Except GoError (Option String))
    (hk : kbIds.length ≠ 0)
    (hz : (collectResults results).successCount = 0) :
    QueryMultipleKnowledgeBases kbIds results converse =
      ⟨"", [], some ((lastObservedError results).getD
        (.plain "all knowledge base queries failed")), false⟩ := by
  rw [QueryMultipleKnowledgeBases, if_neg hk]
  simp only [hz, if_pos rfl] at *
  rw [collectResults_lastError]
  cases lastObservedError results <;> simp [hz]

/-- Evaluation of the orchestrator when some source succeeded: the error is
nil, and the synthesis step runs exactly when the combined answer is
non-empty. -/
theorem qmkb_success (kbIds : List String) (results : List KbResult)
    (converse : Except GoError (Option String))
    (hk : kbIds.length ≠ 0)
    (hz : (collectResults results).successCount ≠ 0) :
    (QueryMultipleKnowledgeBases kbIds results converse).err = none ∧
    ((QueryMultipleKnowledgeBases kbIds results converse).synthesisInvoked =
      !((collectResults results).combinedAnswer = "" : Bool)) := by
  rw [QueryMultipleKnowledgeBases, if_neg hk]
  simp only [if_neg hz]
  by_cases hc : (collectResults results).combinedAnswer = ""
  · rw [if_pos hc]
    simp [hc]
  · rw [if_neg hc]
    cases synthesizeAnswers converse <;> simp [hc]

/-- C6: the orchestrator errors iff every source errored (non-empty source
list); in that case the synthesizer is never invoked and the result is the
last-observed source error, or the generic all-failed error when none was
captured; with at least one success the returned error is nil. -/
theorem queryMultiple_error_iff_all_fail (kbIds : List String)
    (results : List KbResult) (converse : Except GoError (Option String))
    (hne : kbIds ≠ []) :
    ((QueryMultipleKnowledgeBases kbIds results converse).err ≠ none ↔
      ∀ r ∈ results, r.err ≠ none) ∧
    ((∀ r ∈ results, r.err ≠ none) →
      (QueryMultipleKnowledgeBases kbIds results converse).synthesisInvoked
          = false ∧
      (QueryMultipleKnowledgeBases kbIds results converse).err =
        some ((lastObservedError results).getD
          (.plain "all knowledge base queries failed"))) ∧
    ((∃ r ∈ results, r.err = none) →
      (QueryMultipleKnowledgeBases kbIds results converse).err = none) := by
  have hk : kbIds.length ≠ 0 := by
    intro h
    exact hne (List.length_eq_zero.mp h)
  by_cases hz : (collectResults results).successCount = 0
  · have hall : ∀ r ∈ results, r.err ≠ none :=
      (all_fail_iff_successCount_zero results).mpr hz
    rw [qmkb_all_fail kbIds results converse hk hz]
    refine ⟨?_, ?_, ?_⟩
    · constructor
      · intro _
        exact hall
      · intro _
        simp
    · intro _
      exact ⟨rfl, rfl⟩
    · rintro ⟨r, hr, hrerr⟩
      exact absurd hrerr (hall r hr)
  · have hsome := qmkb_success kbIds results converse hk hz
    refine ⟨?_, ?_, ?_⟩
    · rw [hsome.1]
      constructor
      · intro h
        exact absurd rfl h
      · intro h
        exact absurd ((all_fail_iff_successCount_zero results).mp h) hz
    · intro h
      exact absurd ((all_fail_iff_successCount_zero results).mp h) hz
    · intro _
      exact hsome.1

/-- Witness for C6: two failing sources (non-empty configuration list). -/
theorem queryMultiple_error_iff_all_fail_witness :
    (QueryMultipleKnowledgeBases ["k1", "k2"]
      [⟨"", [], some (.plain "boom1"), "k1"⟩,
       ⟨"", [], some (.plain "boom2"), "k2"⟩]
      (.error (.plain "x"))).err ≠ none ∧
    (QueryMultipleKnowledgeBases ["k1", "k2"]
      [⟨"", [], some (.plain "boom1"), "k1"⟩,
       ⟨"", [], some (.plain "boom2"), "k2"⟩]
      (.error (.plain "x"))).synthesisInvoked = false := by
  have h := queryMultiple_error_iff_all_fail ["k1", "k2"]
    [⟨"", [], some (.plain "boom1"), "k1"⟩,
     ⟨"", [], some (.plain "boom2"), "k2"⟩]
    (.error (.plain "x")) (by simp)
  have hall : ∀ r ∈ [(⟨"", [], some (.plain "boom1"), "k1"⟩ : KbResult),
      ⟨"", [], some (.plain "boom2"), "k2"⟩], r.err ≠ none := by
    intro r hr
    simp only [List.mem_cons, List.not_mem_nil, or_false] at hr
    rcases hr with rfl | rfl <;> simp
  exact ⟨h.1.mpr hall, (h.2.1 hall).1⟩

/-- C7: when the synthesis step fails, the orchestrator returns the raw
concatenated answer and the collected document list with a nil error (and
the synthesis step was indeed reached). -/
theorem queryMultiple_synthesis_failure_fallback (kbIds : List String)
    (results : List KbResult) (converse : Except GoError (Option String))
    (e : GoError) (hne : kbIds ≠ [])
    (hsucc : (collectResults results).successCount ≠ 0)
    (hcomb : (collectResults results).combinedAnswer ≠ "")
    (hfail : synthesizeAnswers converse = .error e) :
    QueryMultipleKnowledgeBases kbIds results converse =
      ⟨(collectResults results).combinedAnswer,
       (collectResults results).allDocuments, none, true⟩ := by
  have hk : kbIds.length ≠ 0 := by
    intro h
    exact hne (List.length_eq_zero.mp h)
  rw [QueryMultipleKnowledgeBases, if_neg hk]
  simp only [if_neg hsucc, if_neg hcomb, hfail]

/-- Witness for C7: two successful sources, Converse output not
extractable; the combined answer and a deduplicated document list come back
with a nil error. -/
theorem queryMultiple_synthesis_failure_fallback_witness :
    QueryMultipleKnowledgeBases ["k1", "k2"]
      [⟨"A", ["d"], none, "k1"⟩, ⟨"B", ["d"], none, "k2"⟩] (.ok none) =
      ⟨"A\n\nB", ["d"], none, true⟩ := by
  have h := queryMultiple_synthesis_failure_fallback ["k1", "k2"]
    [⟨"A", ["d"], none, "k1"⟩, ⟨"B", ["d"], none, "k2"⟩] (.ok none)
    (.plain "no synthesis output received") (by simp) (by decide)
    (by decide) rfl
  rw [h]
  rfl

/-! ### C9: document deduplication -/

/-- The documents of the successful results, concatenated in fan-in order
(the order the dedup loop walks them). -/
def successDocs (results : List KbResult) : List String :=
  ((results.filter isSuccess).map KbResult.documents).flatten

/-- First-occurrence deduplication, per the spec's words. -/
def dedupKeepFirst : List String → List String
  | [] => []
  | x :: xs => x :: dedupKeepFirst (xs.filter fun y => decide (y ≠ x))
termination_by l => l.length
decreasing_by
  simp only [List.length_cons]
  exact Nat.lt_succ_of_le (List.length_filter_le _ _)

theorem mem_dedupKeepFirst : ∀ (l : List String) (d : String),
    d ∈ dedupKeepFirst l ↔ d ∈ l
  | [], d => by simp [dedupKeepFirst]
  | x :: xs, d => by
    rw [dedupKeepFirst]
    by_cases hdx : d = x
    · subst hdx
      simp
    · simp only [List.mem_cons, hdx, false_or]
      rw [mem_dedupKeepFirst (xs.filter fun y => decide (y ≠ x)) d]
      simp [List.mem_filter, hdx]
termination_by l => l.length
decreasing_by
  simp only [List.length_cons]
  exact Nat.lt_succ_of_le (List.length_filter_le _ _)

theorem dedupKeepFirst_nodup : ∀ l : List String, (dedupKeepFirst l).Nodup
  | [] => by simp [dedupKeepFirst]
  | x :: xs => by
    rw [dedupKeepFirst, List.nodup_cons]
    constructor
    · intro hmem
      rw [mem_dedupKeepFirst] at hmem
      simp [List.mem_filter] at hmem
    · exact dedupKeepFirst_nodup _
termination_by l => l.length
decreasing_by
  simp only [List.length_cons]
  exact Nat.lt_succ_of_le (List.length_filter_le _ _)

theorem collect_allDocuments (results : List KbResult) :
    ∀ st : CollectState,
      (results.foldl collectStep st).allDocuments =
        (successDocs results).foldl dedupStep st.allDocuments := by
  induction results with
  | nil => intro st; rfl
  | cons r rs ih =>
    intro st
    rw [List.foldl_cons, ih]
    cases h : r.err with
    | some e =>
      have h1 : (collectStep st r).allDocuments = st.allDocuments := by
        simp [collectStep, h]
      have h2 : successDocs (r :: rs) = successDocs rs := by
        simp [successDocs, List.filter_cons, isSuccess, h]
      rw [h1, h2]
    | none =>
      have h1 : (collectStep st r).allDocuments =
          r.documents.foldl dedupStep st.allDocuments := by
        simp [collectStep, h]
      have h2 : successDocs (r :: rs) = r.documents ++ successDocs rs := by
        simp [successDocs, List.filter_cons, isSuccess, h]
      rw [h1, h2, List.foldl_append]

theorem foldl_dedupStep_eq (l : List String) :
    ∀ acc : List String,
      l.foldl dedupStep acc =
        acc ++ dedupKeepFirst (l.filter fun d => decide (d ∉ acc)) := by
  induction l with
  | nil => intro acc; simp [dedupKeepFirst]
  | cons x xs ih =>
    intro acc
    rw [List.foldl_cons]
    by_cases hx : x ∈ acc
    · have h1 : dedupStep acc x = acc := by simp [dedupStep, hx]
      have h2 : ((x :: xs).filter fun d => decide (d ∉ acc)) =
          xs.filter fun d => decide (d ∉ acc) := by
        simp [List.filter_cons, hx]
      rw [h1, h2, ih acc]
    · have h1 : dedupStep acc x = acc ++ [x] := by simp [dedupStep, hx]
      have h2 : ((x :: xs).filter fun d => decide (d ∉ acc)) =
          x :: xs.filter fun d => decide (d ∉ acc) := by
        simp [List.filter_cons, hx]
      rw [h1, h2, ih (acc ++ [x]), dedupKeepFirst, List.append_assoc]
      congr 2
      rw [List.filter_filter]
      have hfilters : (xs.filter fun d => decide (d ∉ acc ++ [x])) =
          xs.filter fun a => decide (a ≠ x) && decide (a ∉ acc) := by
        apply List.filter_congr
        intro a _
        by_cases hh1 : a = x <;> by_cases hh2 : a ∈ acc <;>
          simp [hh1, hh2, List.mem_append]
      rw [hfilters]
      rfl

/-- C9: the returned document list is the exact-string, first-occurrence
deduplication of the successful results' documents in processing order: it
has no duplicate identifier, and an identifier appears in it iff it was
contributed by some successful source (so two distinct identifiers of the
same topic family both remain). -/
theorem allDocuments_dedup_characterization (results : List KbResult) :
    (collectResults results).allDocuments = dedupKeepFirst (successDocs results) ∧
    (collectResults results).allDocuments.Nodup ∧
    ∀ d, d ∈ (collectResults results).allDocuments ↔ d ∈ successDocs results := by
  have h1 : (collectResults results).allDocuments =
      dedupKeepFirst (successDocs results) := by
    rw [collectResults, collect_allDocuments]
    show (successDocs results).foldl dedupStep [] = _
    rw [foldl_dedupStep_eq, List.nil_append]
    congr 1
    apply List.filter_eq_self.mpr
    intro a _
    simp
  refine ⟨h1, ?_, ?_⟩
  · rw [h1]
    exact dedupKeepFirst_nodup _
  · intro d
    rw [h1]
    exact mem_dedupKeepFirst _ d

/-! ### C2: sort-key ordering -/

/-- Shape of every `extractYearMonthFromUrl` output: four digits, a slash,
two digits. -/
def PeriodShape (p : String) : Prop :=
  ∃ a1 a2 a3 a4 a5 a6 : Char,
    p.data = [a1, a2, a3, a4, '/', a5, a6] ∧
    isDigitChar a1 = true ∧ isDigitChar a2 = true ∧ isDigitChar a3 = true ∧
    isDigitChar a4 = true ∧ isDigitChar a5 = true ∧ isDigitChar a6 = true

theorem ymAt_shape (l : List Char) (s : String) (h : ymAt l = some s) :
    PeriodShape s := by
  unfold ymAt at h
  split at h
  next a b c d e f rest =>
    split at h
    next hdig =>
      simp only [Option.some.injEq] at h
      subst h
      simp only [Bool.and_eq_true] at hdig
      exact ⟨a, b, c, d, e, f, rfl, hdig.1.1.1.1.1, hdig.1.1.1.1.2,
        hdig.1.1.1.2, hdig.1.1.2, hdig.1.2, hdig.2⟩
    next => exact absurd h (by simp)
  next => exact absurd h (by simp)

theorem findYM_shape : ∀ (l : List Char) (s : String),
    findYM l = some s → PeriodShape s
  | [], s => by intro h; simp [findYM] at h
  | c :: rest, s => by
    intro h
    rw [findYM] at h
    cases hy : ymAt (c :: rest) with
    | some t =>
      rw [hy] at h
      obtain rfl : t = s := Option.some.inj h
      exact ymAt_shape _ t hy
    | none =>
      rw [hy] at h
      exact findYM_shape rest s h

/-- Every period key the resolver produces has the digit/slash shape. -/
theorem periodShape_extract (url : String) :
    PeriodShape (extractYearMonthFromUrl url) := by
  rw [extractYearMonthFromUrl]
  cases h : findYM url.data with
  | none =>
    show PeriodShape "0000/00"
    exact ⟨'0', '0', '0', '0', '0', '0', rfl, rfl, rfl, rfl, rfl, rfl, rfl⟩
  | some s =>
    show PeriodShape s
    exact findYM_shape url.data s h

theorem lex_append_of_length_eq :
    ∀ (a b : List Char), a < b → a.length = b.length →
      ∀ c d : List Char, (a ++ c : List Char) < b ++ d := by
  intro a b h
  induction h with
  | nil => intro hlen; simp at hlen
  | cons hlt ih =>
    intro hlen c d
    exact List.Lex.cons (ih (by simpa using hlen) c d)
  | rel hlt =>
    intro _ c d
    exact List.Lex.rel hlt

theorem lex_append_left :
    ∀ (e : List Char) {c d : List Char}, c < d → (e ++ c : List Char) < e ++ d := by
  intro e
  induction e with
  | nil => intro c d h; exact h
  | cons x xs ih => intro c d h; exact List.Lex.cons (ih h)

theorem periodStrip_lt (a1 a2 a3 a4 a5 a6 b1 b2 b3 b4 b5 b6 : Char)
    (c d : List Char)
    (h : ([a1, a2, a3, a4, '/', a5, a6] : List Char) <
      [b1, b2, b3, b4, '/', b5, b6]) :
    ([a1, a2, a3, a4, a5, a6] ++ c : List Char) <
      [b1, b2, b3, b4, b5, b6] ++ d := by
  cases h with
  | rel h1 => exact List.Lex.rel h1
  | cons h1 =>
    cases h1 with
    | rel h2 => exact List.Lex.cons (List.Lex.rel h2)
    | cons h2 =>
      cases h2 with
      | rel h3 => exact List.Lex.cons (List.Lex.cons (List.Lex.rel h3))
      | cons h3 =>
        cases h3 with
        | rel h4 =>
          exact List.Lex.cons (List.Lex.cons (List.Lex.cons (List.Lex.rel h4)))
        | cons h4 =>
          cases h4 with
          | rel h5 => exact absurd h5 (lt_irrefl '/')
          | cons h5 =>
            exact List.Lex.cons (List.Lex.cons (List.Lex.cons (List.Lex.cons
              (lex_append_of_length_eq _ _ h5 rfl c d))))

theorem digitChar_lt_iff :
    ∀ a < 10, ∀ b < 10, (digitChar a < digitChar b ↔ a < b) := by decide

theorem decimalDigitsAux_small (fuel n : Nat) (h : n < 10) :
    decimalDigitsAux (fuel + 1) n = [digitChar n] := by
  rw [decimalDigitsAux, if_pos h]

theorem decimalDigits_eq_1 (n : Nat) (h : n < 10) :
    decimalDigits n = [digitChar n] := by
  rw [decimalDigits]
  exact decimalDigitsAux_small n n h

theorem decimalDigits_eq_2 (n : Nat) (h1 : 10 ≤ n) (h2 : n < 100) :
    decimalDigits n = [digitChar (n / 10), digitChar (n % 10)] := by
  obtain ⟨m, rfl⟩ : ∃ m, n = m + 1 := ⟨n - 1, by omega⟩
  rw [decimalDigits, decimalDigitsAux, if_neg (by omega)]
  rw [decimalDigitsAux_small m ((m + 1) / 10) (by omega)]
  rfl

theorem decimalDigits_eq_3 (n : Nat) (h1 : 100 ≤ n) (h2 : n < 1000) :
    decimalDigits n =
      [digitChar (n / 100), digitChar (n / 10 % 10), digitChar (n % 10)] := by
  obtain ⟨m, rfl⟩ : ∃ m, n = m + 1 := ⟨n - 1, by omega⟩
  rw [decimalDigits, decimalDigitsAux, if_neg (by omega)]
  obtain ⟨k, rfl⟩ : ∃ k, m = k + 1 := ⟨m - 1, by omega⟩
  rw [decimalDigitsAux, if_neg (by omega)]
  rw [decimalDigitsAux_small k ((k + 1 + 1) / 10 / 10) (by omega)]
  rw [Nat.div_div_eq_div_mul]
  rfl

theorem pad3_eq (n : Nat) (h : n < 1000) :
    pad3 n = [digitChar (n / 100), digitChar (n / 10 % 10), digitChar (n % 10)] := by
  by_cases h1 : n < 10
  · have e1 : n / 100 = 0 := by omega
    have e2 : n / 10 % 10 = 0 := by omega
    have e3 : n % 10 = n := by omega
    rw [pad3, decimalDigits_eq_1 n h1, e1, e2, e3]
    rfl
  · by_cases h2 : n < 100
    · have e1 : n / 100 = 0 := by omega
      have e2 : n / 10 % 10 = n / 10 := by omega
      rw [pad3, decimalDigits_eq_2 n (by omega) h2, e1, e2]
      rfl
    · rw [pad3, decimalDigits_eq_3 n (by omega) h]
      rfl

theorem pad3_lt (v1 v2 : Nat) (hv2 : v2 < 1000) (h : v1 < v2) :
    (pad3 v1 : List Char) < pad3 v2 := by
  have hv1 : v1 < 1000 := by omega
  rw [pad3_eq v1 hv1, pad3_eq v2 hv2]
  rcases Nat.lt_trichotomy (v1 / 100) (v2 / 100) with hc | hc | hc
  · exact List.Lex.rel
      ((digitChar_lt_iff _ (by omega) _ (by omega)).mpr hc)
  · rw [hc]
    rcases Nat.lt_trichotomy (v1 / 10 % 10) (v2 / 10 % 10) with hd | hd | hd
    · exact List.Lex.cons (List.Lex.rel
        ((digitChar_lt_iff _ (by omega) _ (by omega)).mpr hd))
    · rw [hd]
      have he : v1 % 10 < v2 % 10 := by omega
      exact List.Lex.cons (List.Lex.cons (List.Lex.rel
        ((digitChar_lt_iff _ (by omega) _ (by omega)).mpr he)))
    · exact absurd hd (by omega)
  · exact absurd hc (by omega)

theorem digit_ne_slash (c : Char) (h : isDigitChar c = true) : c ≠ '/' := by
  intro hc
  rw [hc] at h
  exact absurd h (by decide)

theorem filter_slash_shape (c1 c2 c3 c4 c5 c6 : Char)
    (h1 : isDigitChar c1 = true) (h2 : isDigitChar c2 = true)
    (h3 : isDigitChar c3 = true) (h4 : isDigitChar c4 = true)
    (h5 : isDigitChar c5 = true) (h6 : isDigitChar c6 = true) :
    (([c1, c2, c3, c4, '/', c5, c6] : List Char).filter
        fun c => decide (c ≠ '/')) = [c1, c2, c3, c4, c5, c6] := by
  simp [List.filter_cons, digit_ne_slash c1 h1, digit_ne_slash c2 h2,
    digit_ne_slash c3 h3, digit_ne_slash c4 h4, digit_ne_slash c5 h5,
    digit_ne_slash c6 h6]

/-- C2 (amended): for document references with equal `topicKey`, period keys
of the resolver's shape and version numbers below 1000 (where `%03d` does
not overflow its width), the lexicographically greater
`(periodKey, versionNumber)` pair yields the strictly greater
`createSortKey` string. -/
theorem createSortKey_strict_mono (p1 p2 : String) (v1 v2 : Nat)
    (h1 : PeriodShape p1) (h2 : PeriodShape p2)
    (hv1 : v1 < 1000) (hv2 : v2 < 1000)
    (hlt : p1 < p2 ∨ (p1 = p2 ∧ v1 < v2)) :
    createSortKey p1 v1 < createSortKey p2 v2 := by
  obtain ⟨a1, a2, a3, a4, a5, a6, hp1, ha1, ha2, ha3, ha4, ha5, ha6⟩ := h1
  obtain ⟨b1, b2, b3, b4, b5, b6, hp2, hb1, hb2, hb3, hb4, hb5, hb6⟩ := h2
  rw [String.lt_iff_toList_lt]
  show ((p1.data.filter fun c => decide (c ≠ '/')) ++ '-' :: pad3 v1 :
      List Char) <
    (p2.data.filter fun c => decide (c ≠ '/')) ++ '-' :: pad3 v2
  rw [hp1, hp2, filter_slash_shape a1 a2 a3 a4 a5 a6 ha1 ha2 ha3 ha4 ha5 ha6,
    filter_slash_shape b1 b2 b3 b4 b5 b6 hb1 hb2 hb3 hb4 hb5 hb6]
  rcases hlt with hlt | ⟨heq, hv⟩
  · rw [String.lt_iff_toList_lt] at hlt
    have hlt' : ([a1, a2, a3, a4, '/', a5, a6] : List Char) <
        [b1, b2, b3, b4, '/', b5, b6] := by
      rw [← hp1, ← hp2]
      exact hlt
    exact periodStrip_lt a1 a2 a3 a4 a5 a6 b1 b2 b3 b4 b5 b6
      ('-' :: pad3 v1) ('-' :: pad3 v2) hlt'
  · subst heq
    rw [hp1] at hp2
    simp only [List.cons.injEq, and_true] at hp2
    obtain ⟨rfl, rfl, rfl, rfl, -, rfl, rfl⟩ := hp2
    apply lex_append_left
    exact List.Lex.cons (pad3_lt v1 v2 hv2 hv)

/-- Witness for C2 (amended) at periods `2025/05` and `2025/11`. -/
theorem createSortKey_strict_mono_witness :
    createSortKey "2025/05" 7 < createSortKey "2025/11" 1 :=
  createSortKey_strict_mono "2025/05" "2025/11" 7 1
    ⟨'2', '0', '2', '5', '0', '5', rfl, rfl, rfl, rfl, rfl, rfl, rfl⟩
    ⟨'2', '0', '2', '5', '1', '1', rfl, rfl, rfl, rfl, rfl, rfl, rfl⟩
    (by omega) (by omega)
    (Or.inl (String.lt_iff_toList_lt.mpr (by decide)))

/-- C2 counterexample: two identifiers of the same topic family and period
with versions 999 and 1000; the claim ranks version 1000 strictly newer, but
`%03d` overflows its width and the 1000-version's sort key compares strictly
below the 999-version's. -/
theorem sortKey_version_overflow_counterexample :
    extractTopicFromUrl "https://x/2025/11/a-999.pdf" =
      extractTopicFromUrl "https://x/2025/11/a-1000.pdf" ∧
    extractYearMonthFromUrl "https://x/2025/11/a-999.pdf" =
      extractYearMonthFromUrl "https://x/2025/11/a-1000.pdf" ∧
    extractVersionNumber "https://x/2025/11/a-999.pdf" = 999 ∧
    extractVersionNumber "https://x/2025/11/a-1000.pdf" = 1000 ∧
    createSortKey (extractYearMonthFromUrl "https://x/2025/11/a-1000.pdf")
        (extractVersionNumber "https://x/2025/11/a-1000.pdf") <
      createSortKey (extractYearMonthFromUrl "https://x/2025/11/a-999.pdf")
        (extractVersionNumber "https://x/2025/11/a-999.pdf") :=
  ⟨rfl, rfl, rfl, rfl, String.lt_iff_toList_lt.mpr (by decide)⟩

/-! ### C8: totality and shape of the identifier parse -/

/-- The period pattern `/(\d{4})/(\d{2})/` matches `l` at offset `i`. -/
def ymMatchAt (l : List Char) (i : Nat) : Prop :=
  ∃ a b c d e f rest,
    isDigitChar a = true ∧ isDigitChar b = true ∧ isDigitChar c = true ∧
    isDigitChar d = true ∧ isDigitChar e = true ∧ isDigitChar f = true ∧
    l.drop i = '/' :: a :: b :: c :: d :: '/' :: e :: f :: '/' :: rest

theorem ymMatchAt_cons (x : Char) (xs : List Char) (i : Nat) :
    ymMatchAt (x :: xs) (i + 1) ↔ ymMatchAt xs i := by
  unfold ymMatchAt
  rw [List.drop_succ_cons]

theorem ymAt_eq_some_of (a b c d e f : Char) (rest : List Char)
    (ha : isDigitChar a = true) (hb : isDigitChar b = true)
    (hc : isDigitChar c = true) (hd : isDigitChar d = true)
    (he : isDigitChar e = true) (hf : isDigitChar f = true) :
    ymAt ('/' :: a :: b :: c :: d :: '/' :: e :: f :: '/' :: rest) =
      some (String.mk [a, b, c, d, '/', e, f]) := by
  simp [ymAt, ha, hb, hc, hd, he, hf]

theorem ymAt_none_of_no_match (l : List Char) (h : ¬ ymMatchAt l 0) :
    ymAt l = none := by
  cases hy : ymAt l with
  | none => rfl
  | some s =>
    exfalso
    apply h
    unfold ymAt at hy
    split at hy
    next a b c d e f rest =>
      split at hy
      next hdig =>
        simp only [Bool.and_eq_true] at hdig
        exact ⟨a, b, c, d, e, f, rest, hdig.1.1.1.1.1, hdig.1.1.1.1.2,
          hdig.1.1.1.2, hdig.1.1.2, hdig.1.2, hdig.2, by rw [List.drop_zero]⟩
      next => exact absurd hy (by simp)
    next => exact absurd hy (by simp)

theorem findYM_first : ∀ (l : List Char) (i : Nat) (a b c d e f : Char)
    (rest : List Char),
    (∀ j, j < i → ¬ ymMatchAt l j) →
    l.drop i = '/' :: a :: b :: c :: d :: '/' :: e :: f :: '/' :: rest →
    isDigitChar a = true → isDigitChar b = true → isDigitChar c = true →
    isDigitChar d = true → isDigitChar e = true → isDigitChar f = true →
    findYM l = some (String.mk [a, b, c, d, '/', e, f])
  | l, 0, a, b, c, d, e, f, rest => by
    intro _ hdrop ha hb hc hd he hf
    rw [List.drop_zero] at hdrop
    subst hdrop
    rw [findYM, ymAt_eq_some_of a b c d e f rest ha hb hc hd he hf]
  | [], i + 1, a, b, c, d, e, f, rest => by
    intro _ hdrop _ _ _ _ _ _
    simp at hdrop
  | x :: xs, i + 1, a, b, c, d, e, f, rest => by
    intro hfirst hdrop ha hb hc hd he hf
    rw [findYM, ymAt_none_of_no_match (x :: xs) (hfirst 0 (Nat.succ_pos i))]
    show findYM xs = _
    refine findYM_first xs i a b c d e f rest ?_ ?_ ha hb hc hd he hf
    · intro j hj hm
      exact hfirst (j + 1) (by omega) ((ymMatchAt_cons x xs j).mpr hm)
    · rw [← List.drop_succ_cons]
      exact hdrop

theorem findYM_none : ∀ l : List Char, (∀ i, ¬ ymMatchAt l i) → findYM l = none
  | [] => fun _ => rfl
  | x :: xs => fun h => by
    rw [findYM, ymAt_none_of_no_match (x :: xs) (h 0)]
    show findYM xs = none
    exact findYM_none xs fun i hm => h (i + 1) ((ymMatchAt_cons x xs i).mpr hm)

theorem takeWhile_append_not (p : Char → Bool) :
    ∀ (u : List Char) (c : Char) (v : List Char),
      (∀ x ∈ u, p x = true) → p c = false →
      (u ++ c :: v).takeWhile p = u := by
  intro u
  induction u with
  | nil =>
    intro c v _ hc
    simp [List.takeWhile_cons, hc]
  | cons y ys ih =>
    intro c v hu hc
    have hy : p y = true := hu y (by simp)
    simp only [List.cons_append, List.takeWhile_cons, hy, if_true]
    rw [ih c v (fun x hx => hu x (by simp [hx])) hc]

theorem dropWhile_append_not (p : Char → Bool) :
    ∀ (u : List Char) (c : Char) (v : List Char),
      (∀ x ∈ u, p x = true) → p c = false →
      (u ++ c :: v).dropWhile p = c :: v := by
  intro u
  induction u with
  | nil =>
    intro c v _ hc
    simp [List.dropWhile_cons, hc]
  | cons y ys ih =>
    intro c v hu hc
    have hy : p y = true := hu y (by simp)
    simp only [List.cons_append, List.dropWhile_cons, hy, if_true]
    exact ih c v (fun x hx => hu x (by simp [hx])) hc

theorem trailingVersionToken_eq_some (pre ds : List Char)
    (hds : ds ≠ []) (hdig : ∀ c ∈ ds, isDigitChar c = true) :
    trailingVersionToken (pre ++ '-' :: ds) = some ds := by
  have hrev : (pre ++ '-' :: ds).reverse = ds.reverse ++ '-' :: pre.reverse := by
    rw [List.reverse_append, List.reverse_cons, List.append_assoc]
    simp
  have hmem : ∀ x ∈ ds.reverse, isDigitChar x = true :=
    fun x hx => hdig x (List.mem_reverse.mp hx)
  simp only [trailingVersionToken, hrev]
  rw [takeWhile_append_not isDigitChar ds.reverse '-' pre.reverse hmem (by decide)]
  rw [dropWhile_append_not isDigitChar ds.reverse '-' pre.reverse hmem (by decide)]
  rw [List.reverse_reverse]
  rw [if_neg hds]
  rfl

theorem trailingVersionToken_eq_none (fn : List Char)
    (h : ¬ ∃ pre ds, fn = pre ++ '-' :: ds ∧ ds ≠ [] ∧
      ∀ c ∈ ds, isDigitChar c = true) :
    trailingVersionToken fn = none := by
  cases htv : trailingVersionToken fn with
  | none => rfl
  | some ds =>
    exfalso
    apply h
    simp only [trailingVersionToken] at htv
    by_cases hds : (fn.reverse.takeWhile isDigitChar).reverse = []
    · rw [if_pos hds] at htv
      exact absurd htv (by simp)
    · rw [if_neg hds] at htv
      split at htv
      next rest heq =>
        simp only [Option.some.injEq] at htv
        subst htv
        refine ⟨rest.reverse, (fn.reverse.takeWhile isDigitChar).reverse,
          ?_, hds, ?_⟩
        · have hsplit := List.takeWhile_append_dropWhile isDigitChar fn.reverse
          rw [heq] at hsplit
          have hrev := congrArg List.reverse hsplit
          rw [List.reverse_reverse] at hrev
          conv_lhs => rw [← hrev]
          simp [List.reverse_append, List.reverse_cons, List.append_assoc]
        · intro c hcm
          rw [List.mem_reverse] at hcm
          exact List.mem_takeWhile_imp hcm
      next => exact absurd htv (by simp)

/-- C8 (amended): the parse is total; `periodKey` is the leftmost
`/YYYY/MM/` segment, defaulting to `"0000/00"` when none occurs, and
`versionNumber` is the value of a trailing `-<digits>` token of the
extension-stripped filename whenever one exists and its value fits Go's
64-bit `int` (on overflow the `Sscanf` error leaves 0), and 0 when no token
exists. -/
theorem parse_total_characterization (url : String) :
    ((∀ i, ¬ ymMatchAt url.data i) →
      extractYearMonthFromUrl url = "0000/00") ∧
    (∀ i a b c d e f rest,
      (∀ j, j < i → ¬ ymMatchAt url.data j) →
      url.data.drop i = '/' :: a :: b :: c :: d :: '/' :: e :: f :: '/' :: rest →
      isDigitChar a = true → isDigitChar b = true → isDigitChar c = true →
      isDigitChar d = true → isDigitChar e = true → isDigitChar f = true →
      extractYearMonthFromUrl url = String.mk [a, b, c, d, '/', e, f]) ∧
    ((¬ ∃ pre ds, stripExtensions (lastPart url.data) = pre ++ '-' :: ds ∧
        ds ≠ [] ∧ ∀ c ∈ ds, isDigitChar c = true) →
      extractVersionNumber url = 0) ∧
    (∀ pre ds, stripExtensions (lastPart url.data) = pre ++ '-' :: ds →
      ds ≠ [] → (∀ c ∈ ds, isDigitChar c = true) →
      digitsToNat ds ≤ maxGoInt →
      extractVersionNumber url = digitsToNat ds) := by
  refine ⟨?_, ?_, ?_, ?_⟩
  · intro h
    rw [extractYearMonthFromUrl, findYM_none url.data h]
    rfl
  · intro i a b c d e f rest hfirst hdrop ha hb hc hd he hf
    rw [extractYearMonthFromUrl,
      findYM_first url.data i a b c d e f rest hfirst hdrop ha hb hc hd he hf]
    rfl
  · intro h
    simp only [extractVersionNumber]
    rw [trailingVersionToken_eq_none _ h]
  · intro pre ds hfn hds hdig hbound
    simp only [extractVersionNumber]
    rw [hfn, trailingVersionToken_eq_some pre ds hds hdig]
    simp only [if_pos hbound]

/-- Witness for C8 on `/2025/11/a-7.pdf`: leftmost period match at offset 0
and version token `7`. -/
theorem parse_total_characterization_witness :
    extractYearMonthFromUrl "/2025/11/a-7.pdf" = "2025/11" ∧
    extractVersionNumber "/2025/11/a-7.pdf" = 7 := by
  have h := parse_total_characterization "/2025/11/a-7.pdf"
  constructor
  · have h2 := h.2.1 0 '2' '0' '2' '5' '1' '1' "a-7.pdf".data
      (fun j hj => absurd hj (Nat.not_lt_zero j)) rfl rfl rfl rfl rfl rfl rfl
    exact h2
  · have h4 := h.2.2.2 "a".data "7".data rfl (by simp)
      (by intro c hcm; simp at hcm; rw [hcm]; rfl) (by decide)
    exact h4

/-- C8 counterexample: a trailing `-<digits>` token whose value exceeds
Go's 64-bit `int`; the claim says `versionNumber` is that integer
(nonzero), but the code's `Sscanf` fails on overflow and leaves 0. -/
theorem extractVersionNumber_overflow_counterexample :
    stripExtensions (lastPart
        ("doc-9999999999999999999999999999.pdf" : String).data) =
      "doc".data ++ '-' :: "9999999999999999999999999999".data ∧
    "9999999999999999999999999999".data ≠ [] ∧
    (∀ c ∈ "9999999999999999999999999999".data, isDigitChar c = true) ∧
    digitsToNat "9999999999999999999999999999".data =
      9999999999999999999999999999 ∧
    9999999999999999999999999999 > maxGoInt ∧
    extractVersionNumber "doc-9999999999999999999999999999.pdf" = 0 :=
  ⟨rfl, by simp, by decide, by rfl, by decide, rfl⟩

/-! ### C10: the markdown normaliser output shape -/

theorem collapseWSGo_no_newline :
    ∀ (l : List Char) (b : Bool), '\n' ∉ collapseWSGo b l := by
  intro l
  induction l with
  | nil => intro b; simp [collapseWSGo]
  | cons c rest ih =>
    intro b
    rw [collapseWSGo]
    by_cases hc : isGoSpace c = true
    · rw [if_pos hc]
      cases b
      · simp only [Bool.false_eq_true, if_false]
        intro hmem
        rcases List.mem_cons.mp hmem with heq | hmem'
        · exact absurd heq (by decide)
        · exact ih true hmem'
      · simp only [if_true]
        exact ih true
    · rw [if_neg hc]
      intro hmem
      rcases List.mem_cons.mp hmem with heq | hmem'
      · apply hc
        rw [← heq]
        rfl
      · exact ih false hmem'

theorem collapseWSGo_head_not_space :
    ∀ (l : List Char) (c : Char),
      (collapseWSGo true l).head? = some c → isGoSpace c = false := by
  intro l
  induction l with
  | nil => intro c h; simp [collapseWSGo] at h
  | cons x rest ih =>
    intro c h
    rw [collapseWSGo] at h
    by_cases hx : isGoSpace x = true
    · rw [if_pos hx] at h
      simp only [if_true] at h
      exact ih c h
    · rw [if_neg hx] at h
      simp only [List.head?_cons, Option.some.injEq] at h
      subst h
      simpa using hx

theorem singleton_prefix_head (x : Char) (l : List Char)
    (h : [x] <+: l) : l.head? = some x := by
  obtain ⟨t, ht⟩ := h
  rw [← ht]
  rfl

theorem collapseWSGo_no_pair :
    ∀ (l : List Char) (b : Bool), ¬ ([' ', ' '] <:+: collapseWSGo b l) := by
  intro l
  induction l with
  | nil =>
    intro b h
    have := h.sublist.length_le
    simp [collapseWSGo] at this
  | cons c rest ih =>
    intro b h
    rw [collapseWSGo] at h
    by_cases hc : isGoSpace c = true
    · rw [if_pos hc] at h
      cases b
      · simp only [Bool.false_eq_true, if_false] at h
        rcases List.infix_cons_iff.mp h with hpre | hinf
        · obtain ⟨-, hpre'⟩ := List.cons_prefix_cons.mp hpre
          have hhead := singleton_prefix_head ' ' _ hpre'
          have := collapseWSGo_head_not_space rest ' ' hhead
          exact absurd this (by decide)
        · exact ih true hinf
      · simp only [if_true] at h
        exact ih true h
    · rw [if_neg hc] at h
      rcases List.infix_cons_iff.mp h with hpre | hinf
      · obtain ⟨heq, -⟩ := List.cons_prefix_cons.mp hpre
        apply hc
        rw [← heq]
        rfl
      · exact ih false hinf

theorem head_dropWhile_not (p : Char → Bool) :
    ∀ (l : List Char) (c : Char),
      (l.dropWhile p).head? = some c → p c = false := by
  intro l
  induction l with
  | nil => intro c h; simp at h
  | cons x xs ih =>
    intro c h
    rw [List.dropWhile_cons] at h
    by_cases hx : p x = true
    · rw [if_pos hx] at h
      exact ih c h
    · rw [if_neg hx] at h
      simp only [List.head?_cons, Option.some.injEq] at h
      subst h
      simpa using hx

theorem trimSpace_infix (l : List Char) : trimSpace l <:+: l := by
  rw [trimSpace]
  have h1 : l.dropWhile isUniSpace <:+ l := List.dropWhile_suffix _
  have h2 : (l.dropWhile isUniSpace).reverse.dropWhile isUniSpace <:+
      (l.dropWhile isUniSpace).reverse := List.dropWhile_suffix _
  have h3 := List.reverse_prefix.mpr h2
  rw [List.reverse_reverse] at h3
  exact h3.isInfix.trans h1.isInfix

theorem trimSpace_head (l : List Char) (c : Char)
    (h : (trimSpace l).head? = some c) : isUniSpace c = false := by
  rw [trimSpace, List.head?_reverse] at h
  have hne : (l.dropWhile isUniSpace).reverse.dropWhile isUniSpace ≠ [] := by
    intro hnil
    rw [hnil] at h
    simp at h
  obtain ⟨w, hw⟩ :=
    List.dropWhile_suffix (l := (l.dropWhile isUniSpace).reverse) isUniSpace
  have hlast : (l.dropWhile isUniSpace).reverse.getLast? = some c := by
    rw [← hw, List.getLast?_append_of_ne_nil w hne]
    exact h
  rw [List.getLast?_reverse] at hlast
  exact head_dropWhile_not isUniSpace l c hlast

theorem trimSpace_getLast (l : List Char) (c : Char)
    (h : (trimSpace l).getLast? = some c) : isUniSpace c = false := by
  rw [trimSpace, List.getLast?_reverse] at h
  exact head_dropWhile_not isUniSpace _ c h

theorem normalized_of_collapse (y : List Char) :
    '\n' ∉ trimSpace (collapseWS y) ∧
    ¬ ([' ', ' '] <:+: trimSpace (collapseWS y)) ∧
    (∀ c, (trimSpace (collapseWS y)).head? = some c → isUniSpace c = false) ∧
    (∀ c, (trimSpace (collapseWS y)).getLast? = some c → isUniSpace c = false) := by
  have hinf := trimSpace_infix (collapseWS y)
  refine ⟨?_, ?_, fun c => trimSpace_head _ c, fun c => trimSpace_getLast _ c⟩
  · intro hmem
    exact collapseWSGo_no_newline y false (hinf.sublist.subset hmem)
  · intro hpair
    exact collapseWSGo_no_pair y false (hpair.trans hinf)

/-- C10: for every input, `CleanMarkdown` returns a string with no newline
character, no leading or trailing whitespace (Go `unicode.IsSpace`), and no
two consecutive space characters. -/
theorem cleanMarkdown_normalized (text : String) :
    '\n' ∉ (CleanMarkdown text).data ∧
    ¬ ([' ', ' '] <:+: (CleanMarkdown text).data) ∧
    (∀ c, (CleanMarkdown text).data.head? = some c → isUniSpace c = false) ∧
    (∀ c, (CleanMarkdown text).data.getLast? = some c → isUniSpace c = false) :=
  normalized_of_collapse (replaceNewlines (collapseNN
    (singlePass '_' .norm (singlePass '*' .norm
      (pairPass '_' .norm (pairPass '*' .norm
        (stripHeaders text.data)))))))

/-- Witness for C10 on a concrete markdown string. -/
theorem cleanMarkdown_normalized_witness :
    '\n' ∉ (CleanMarkdown "# A\n\n**B**  C ").data ∧
    ¬ ([' ', ' '] <:+: (CleanMarkdown "# A\n\n**B**  C ").data) :=
  ⟨(cleanMarkdown_normalized "# A\n\n**B**  C ").1,
   (cleanMarkdown_normalized "# A\n\n**B**  C ").2.1⟩

end KBCore
